import Mathlib

/-!
Verification of the timedb storage engine (package `timedb`).

This file gives a shallow embedding of the engine's two source paths:

* the record codec and record scanner (`Scanner.Data`, `Scanner.Scan`),
* the day-partitioned chunked reader (`reader.nextFile`, `reader.Read`),
* the write path with its cached handle and exclusive lock (`DB.save`).

Timestamps are modelled as `Int` unix seconds (`time.Unix(e, 0)` maps to `e`;
the zero value of `time.Time`, January 1 of year 1, maps to `zeroTimeSec`).
Lines and byte streams are modelled as `List Char`.
-/

namespace TimeDB

/-- Unix seconds of the zero value of Go's `time.Time` (Jan 1, year 1 UTC). -/
def zeroTimeSec : Int := -62135596800

/-- A decoded record: `DataPoint{Time, Text}`.  The Go zero value
`DataPoint{}` has the zero time and empty text. -/
structure DataPoint where
  time : Int
  text : List Char
  deriving DecidableEq

/-- The zero value `DataPoint{}` returned by `Scanner.Data` on a decode
failure. -/
def zeroDataPoint : DataPoint := ⟨zeroTimeSec, []⟩

/-! ## Decimal formatting and parsing

`fmt.Fprintf("%d", n)` and `strconv.ParseInt(s, 10, 64)`. -/

/-- Decimal digits of a natural number, most significant first
(`fmt` verb `%d` for a non-negative value).  The first argument is fuel,
always called with fuel larger than the number of digits. -/
def natDigitsAux : Nat → Nat → List Char
  | 0, _ => []
  | fuel + 1, n =>
    if n < 10 then [Char.ofNat (48 + n)]
    else natDigitsAux fuel (n / 10) ++ [Char.ofNat (48 + n % 10)]

/-- Decimal digit string of a natural number. -/
def natDigits (n : Nat) : List Char := natDigitsAux (n + 1) n

/-- Decimal rendering of an `Int` as produced by the `%d` verb. -/
def goFormatInt (t : Int) : List Char :=
  if t < 0 then '-' :: natDigits (-t).toNat else natDigits t.toNat

/-- Is `c` an ASCII decimal digit (the per-character check of
`strconv.ParseInt` in base 10)? -/
def isDigitCh (c : Char) : Bool := 48 ≤ c.toNat && c.toNat ≤ 57

/-- Left-to-right accumulation of a digit string, as `strconv.ParseInt`
reads it; `none` on the first non-digit character. -/
def digitsValAux : Nat → List Char → Option Nat
  | acc, [] => some acc
  | acc, c :: rest =>
    if isDigitCh c then digitsValAux (acc * 10 + (c.toNat - 48)) rest else none

/-- The unsigned core of `strconv.ParseInt(s, 10, 64)` after the sign has
been stripped: all-digit check plus the int64 range check (errors are
`none`). -/
def parseIntCore (neg : Bool) (ds : List Char) : Option Int :=
  if ds = [] then none
  else
    match digitsValAux 0 ds with
    | none => none
    | some n =>
      if neg then if n ≤ 2 ^ 63 then some (-(n : Int)) else none
      else if n < 2 ^ 63 then some (n : Int) else none

/-- Model of `strconv.ParseInt(s, 10, 64)`: optional sign, then digits, with the
int64 range check; `none` models a returned error. -/
def parseIntGo (cs : List Char) : Option Int :=
  match cs with
  | [] => none
  | c :: rest =>
    if c = '+' then parseIntCore false rest
    else if c = '-' then parseIntCore true rest
    else parseIntCore false (c :: rest)

/-! ## Record codec -/

/-- Model of `strings.Index(line, " ")` together with the two slices the code takes:
`some (line[:i], line[i:])` where `i` is the index of the first space (note
the right part keeps the space), `none` when the line has no space. -/
def breakAtSpace : List Char → Option (List Char × List Char)
  | [] => none
  | c :: rest =>
    if c = ' ' then some ([], c :: rest)
    else
      match breakAtSpace rest with
      | none => none
      | some (l, r) => some (c :: l, r)

/-- The parse performed by `Scanner.Data` on one line: split at the first
space, parse the left part as unix seconds, keep `line[i:]` (leading space
included) as the text.  `none` models the method setting `s.Error` and
returning `DataPoint{}`. -/
def lineData (line : List Char) : Option DataPoint :=
  match breakAtSpace line with
  | none => none
  | some (pre, post) =>
    match parseIntGo pre with
    | none => none
    | some e => some ⟨e, post⟩

/-- The `DataPoint` value `Scanner.Data` actually returns: the parsed
record, or `DataPoint{}` when parsing failed. -/
def dataOrZero (line : List Char) : DataPoint :=
  (lineData line).getD zeroDataPoint

/-- The line `DB.save` appends for `(t, data)`:
`fmt.Fprintf(f, "%d %s\n", t.Unix(), data)`. -/
def encodeRecord (t : Int) (s : List Char) : List Char :=
  goFormatInt t ++ ' ' :: s ++ ['\n']

/-- The same line before its terminating newline (what the tokenizer hands
to `Scanner.Data`). -/
def encodeLine (t : Int) (s : List Char) : List Char :=
  goFormatInt t ++ ' ' :: s

/-- Is the first list a character-wise prefix of the second? -/
def isPrefixCh : List Char → List Char → Bool
  | [], _ => true
  | _ :: _, [] => false
  | a :: as, b :: bs => a = b && isPrefixCh as bs

/-- Model of `strings.Contains(l, sub)`: does `sub` occur as a contiguous substring
of `l`? -/
def hasSub : List Char → List Char → Bool
  | l, sub =>
    if isPrefixCh sub l then true
    else
      match l with
      | [] => false
      | _ :: rest => hasSub rest sub

/-! ## Record scanner

`Scanner.Scan` drives a `bufio.Scanner` over the multi-file reader.  The
line stream is modelled as a `List (List Char)`; the scanner state is the
running index `r.index` and the sticky error flag (`s.Error != nil`). -/

/-- Configuration of a scanner: the reader fields `start`, `offset`,
`limit` and `filter` that `Scanner.Scan` consults.  `DB.Query` sets
`limit = offset + size`. -/
structure ScanCfg where
  start : Int
  offset : Nat
  limit : Nat
  filter : List Char

/-- Configuration built by `DB.Query(table, start, end, offset, size)`: it configures the scanner
with `offset` and `limit = offset + size` and an empty filter. -/
def queryCfg (start : Int) (offset size : Nat) : ScanCfg :=
  ⟨start, offset, offset + size, []⟩

/-- One call of `Scanner.Scan`: either `none` (Scan returned false) or the
emitted record plus the unconsumed lines; in both cases the updated index
and sticky-error flag.  Mirrors the labelled loop of the source: limit
check, pull a line, decode, time-floor skip, raw-line filter skip,
offset skip, emit. -/
def scanScan (cfg : ScanCfg) :
    List (List Char) → Nat → Bool → Option (DataPoint × List (List Char)) × Nat × Bool
  | [], index, err => (none, index, err)
  | line :: rest, index, err =>
    if 0 < cfg.limit ∧ cfg.limit ≤ index then (none, index, err)
    else if (dataOrZero line).time < cfg.start then
      scanScan cfg rest index (err || (lineData line).isNone)
    else if cfg.filter ≠ [] ∧ hasSub line cfg.filter = false then
      scanScan cfg rest index (err || (lineData line).isNone)
    else if index < cfg.offset then
      scanScan cfg rest (index + 1) (err || (lineData line).isNone)
    else (some (dataOrZero line, rest), index + 1, err || (lineData line).isNone)

/-- Driving `Scanner.Scan` until it returns false (`for scanner.Scan()`),
collecting every emitted record; the second component is the final
sticky-error flag. -/
def scanDrain (cfg : ScanCfg) :
    List (List Char) → Nat → Bool → List DataPoint × Bool
  | [], _, err => ([], err)
  | line :: rest, index, err =>
    if 0 < cfg.limit ∧ cfg.limit ≤ index then ([], err)
    else if (dataOrZero line).time < cfg.start then
      scanDrain cfg rest index (err || (lineData line).isNone)
    else if cfg.filter ≠ [] ∧ hasSub line cfg.filter = false then
      scanDrain cfg rest index (err || (lineData line).isNone)
    else if index < cfg.offset then
      scanDrain cfg rest (index + 1) (err || (lineData line).isNone)
    else
      (dataOrZero line ::
          (scanDrain cfg rest (index + 1) (err || (lineData line).isNone)).1,
        (scanDrain cfg rest (index + 1) (err || (lineData line).isNone)).2)

/-- Does a line survive the time-floor and filter steps of `Scanner.Scan`? -/
def qualifies (cfg : ScanCfg) (line : List Char) : Bool :=
  !decide ((dataOrZero line).time < cfg.start) &&
    (decide (cfg.filter = []) || hasSub line cfg.filter)

/-! ## Chunked multi-file reader

`reader` walks one calendar day at a time from `start` to `end`, opening
`<root>/<day>/<table>.log` for each day.  The filesystem is abstracted as a
function from the day instant the reader passes to `open` to that file's
fate: absent (`os.IsNotExist`), an open error of any other kind, or the
file's byte content. -/

/-- Result of `r.open(t)` for the partition of one day. -/
inductive FileRes where
  | absent
  | fatal
  | content : List Char → FileRes
  deriving DecidableEq

/-- The reader's query bounds `r.start` and `r.end`. -/
structure RCfg where
  start : Int
  endT : Int

/-- One advance of `r.current` inside `nextFile`: jump to `start` if still
before it, otherwise add 24 hours. -/
def stepDay (cfg : RCfg) (current : Int) : Int :=
  if current < cfg.start then cfg.start else current + 86400

theorem stepDay_gt (cfg : RCfg) (current : Int) : current < stepDay cfg current := by
  rw [stepDay]
  by_cases hc : current < cfg.start
  · rw [if_pos hc]; omega
  · rw [if_neg hc]; omega

/-- Outcome of `reader.nextFile`: past the end of the range (`io.EOF`), a
fatal open error, or a successfully opened day file.  Each constructor
carries the final value of `r.current`. -/
inductive NFRes where
  | eof : Int → NFRes
  | fatal : Int → NFRes
  | opened : Int → List Char → NFRes
  deriving DecidableEq

/-- Model of `reader.nextFile`: advance the day, stop with `io.EOF` past `end`,
silently skip days whose file does not exist, stop on any other open
error, otherwise yield the opened file. -/
def nextFile (fs : Int → FileRes) (cfg : RCfg) (current : Int) : NFRes :=
  if h : cfg.endT < stepDay cfg current then .eof (stepDay cfg current)
  else
    match fs (stepDay cfg current) with
    | .absent => nextFile fs cfg (stepDay cfg current)
    | .fatal => .fatal (stepDay cfg current)
    | .content c => .opened (stepDay cfg current) c
termination_by (cfg.endT + 86401 - current).toNat
decreasing_by
  have := stepDay_gt cfg current
  omega

/-- The sequence of days (as the values `r.current` takes) that the reader
visits between `current` and the end of the range. -/
def daysFrom (cfg : RCfg) (current : Int) : List Int :=
  if h : cfg.endT < stepDay cfg current then []
  else stepDay cfg current :: daysFrom cfg (stepDay cfg current)
termination_by (cfg.endT + 86401 - current).toNat
decreasing_by
  have := stepDay_gt cfg current
  omega

theorem nextFile_opened_bounds (fs : Int → FileRes) (cfg : RCfg) :
    ∀ (current cur : Int) (c : List Char),
      nextFile fs cfg current = .opened cur c → current < cur ∧ cur ≤ cfg.endT := by
  intro current
  induction current using nextFile.induct fs cfg with
  | case1 current h =>
    intro cur c hc
    rw [nextFile, dif_pos h] at hc
    exact absurd hc (by simp)
  | case2 current h hfs ih =>
    intro cur c hc
    rw [nextFile, dif_neg h, hfs] at hc
    have := ih cur c hc
    have := stepDay_gt cfg current
    omega
  | case3 current h hfs =>
    intro cur c hc
    rw [nextFile, dif_neg h, hfs] at hc
    exact absurd hc (by simp)
  | case4 current h c' hfs =>
    intro cur c hc
    rw [nextFile, dif_neg h, hfs] at hc
    have h1 : stepDay cfg current = cur := by
      cases hc; rfl
    have := stepDay_gt cfg current
    omega

/-- The cumulative byte stream the reader delivers from `current` on:
contents of the opened day files concatenated, or an error if a fatal open
is reached.  This is what the line tokenizer consumes. -/
def readerBytes (fs : Int → FileRes) (cfg : RCfg) (current : Int) :
    Except Unit (List Char) :=
  match h : nextFile fs cfg current with
  | .eof _ => .ok []
  | .fatal _ => .error ()
  | .opened cur c =>
    match readerBytes fs cfg cur with
    | .error e => .error e
    | .ok rest => .ok (c ++ rest)
termination_by (cfg.endT + 86401 - current).toNat
decreasing_by
  have := nextFile_opened_bounds fs cfg current cur c h
  omega

/-- Content a day contributes to the stream (nothing when absent; a fatal
day never contributes because the reader stops there). -/
def contentOf : FileRes → List Char
  | .absent => []
  | .fatal => []
  | .content c => c

/-- Concatenated contents of the given days, in order. -/
def catContents (fs : Int → FileRes) : List Int → List Char
  | [] => []
  | d :: rest => contentOf (fs d) ++ catContents fs rest

theorem catContents_append (fs : Int → FileRes) (xs ys : List Int) :
    catContents fs (xs ++ ys) = catContents fs xs ++ catContents fs ys := by
  induction xs with
  | nil => rfl
  | cons d rest ih => simp [catContents, ih]

theorem catContents_absent (fs : Int → FileRes) (xs : List Int)
    (h : ∀ d ∈ xs, fs d = .absent) : catContents fs xs = [] := by
  induction xs with
  | nil => rfl
  | cons d rest ih =>
    rw [catContents, h d (List.mem_cons_self _ _)]
    exact ih fun x hx => h x (List.mem_cons_of_mem _ hx)

theorem nextFile_eof_all_absent (fs : Int → FileRes) (cfg : RCfg) :
    ∀ (current cur : Int), nextFile fs cfg current = .eof cur →
      ∀ d ∈ daysFrom cfg current, fs d = .absent := by
  intro current
  induction current using nextFile.induct fs cfg with
  | case1 current h =>
    intro cur hc d hd
    rw [daysFrom, dif_pos h] at hd
    simp at hd
  | case2 current h hfs ih =>
    intro cur hc d hd
    rw [nextFile, dif_neg h, hfs] at hc
    rw [daysFrom, dif_neg h] at hd
    rcases List.mem_cons.mp hd with rfl | hd
    · exact hfs
    · exact ih cur hc d hd
  | case3 current h hfs =>
    intro cur hc d hd
    rw [nextFile, dif_neg h, hfs] at hc
    exact absurd hc (by simp)
  | case4 current h c' hfs =>
    intro cur hc d hd
    rw [nextFile, dif_neg h, hfs] at hc
    exact absurd hc (by simp)

theorem nextFile_fatal_mem (fs : Int → FileRes) (cfg : RCfg) :
    ∀ (current d : Int), nextFile fs cfg current = .fatal d →
      d ∈ daysFrom cfg current ∧ fs d = .fatal := by
  intro current
  induction current using nextFile.induct fs cfg with
  | case1 current h =>
    intro d hc
    rw [nextFile, dif_pos h] at hc
    exact absurd hc (by simp)
  | case2 current h hfs ih =>
    intro d hc
    rw [nextFile, dif_neg h, hfs] at hc
    have := ih d hc
    rw [daysFrom, dif_neg h]
    exact ⟨List.mem_cons_of_mem _ this.1, this.2⟩
  | case3 current h hfs =>
    intro d hc
    rw [nextFile, dif_neg h, hfs] at hc
    have hd : stepDay cfg current = d := by cases hc; rfl
    rw [daysFrom, dif_neg h, hd]
    exact ⟨List.mem_cons_self _ _, hd ▸ hfs⟩
  | case4 current h c' hfs =>
    intro d hc
    rw [nextFile, dif_neg h, hfs] at hc
    exact absurd hc (by simp)

theorem nextFile_opened_split (fs : Int → FileRes) (cfg : RCfg) :
    ∀ (current d : Int) (c : List Char), nextFile fs cfg current = .opened d c →
      fs d = .content c ∧
        ∃ pre, daysFrom cfg current = pre ++ d :: daysFrom cfg d ∧
          ∀ p ∈ pre, fs p = .absent := by
  intro current
  induction current using nextFile.induct fs cfg with
  | case1 current h =>
    intro d c hc
    rw [nextFile, dif_pos h] at hc
    exact absurd hc (by simp)
  | case2 current h hfs ih =>
    intro d c hc
    rw [nextFile, dif_neg h, hfs] at hc
    obtain ⟨hct, pre, hsplit, hpre⟩ := ih d c hc
    refine ⟨hct, stepDay cfg current :: pre, ?_, ?_⟩
    · rw [daysFrom, dif_neg h, hsplit]
      rfl
    · intro p hp
      rcases List.mem_cons.mp hp with rfl | hp
      · exact hfs
      · exact hpre p hp
  | case3 current h hfs =>
    intro d c hc
    rw [nextFile, dif_neg h, hfs] at hc
    exact absurd hc (by simp)
  | case4 current h c' hfs =>
    intro d c hc
    rw [nextFile, dif_neg h, hfs] at hc
    have hd : stepDay cfg current = d ∧ c' = c := by
      cases hc; exact ⟨rfl, rfl⟩
    refine ⟨hd.1 ▸ hd.2 ▸ hfs, [], ?_, by simp⟩
    rw [daysFrom, dif_neg h, hd.1, List.nil_append]

/-- With no fatal day in range, the reader delivers exactly the
concatenation of the existing day files, in calendar order; absent days
contribute nothing. -/
theorem readerBytes_ok (fs : Int → FileRes) (cfg : RCfg) :
    ∀ (n : Nat) (current : Int), (daysFrom cfg current).length ≤ n →
      (∀ d ∈ daysFrom cfg current, fs d ≠ .fatal) →
      readerBytes fs cfg current = .ok (catContents fs (daysFrom cfg current)) := by
  intro n
  induction n with
  | zero =>
    intro current hlen hnf
    by_cases hend : cfg.endT < stepDay cfg current
    · rw [readerBytes, nextFile, dif_pos hend, daysFrom, dif_pos hend]
      rfl
    · rw [daysFrom, dif_neg hend] at hlen
      simp at hlen
  | succ n ih =>
    intro current hlen hnf
    rw [readerBytes]
    cases hc : nextFile fs cfg current with
    | eof cur =>
      have habs := nextFile_eof_all_absent fs cfg current cur hc
      rw [catContents_absent fs _ habs]
    | fatal d =>
      have := nextFile_fatal_mem fs cfg current d hc
      exact absurd this.2 (hnf d this.1)
    | opened d c =>
      obtain ⟨hct, pre, hsplit, hpre⟩ := nextFile_opened_split fs cfg current d c hc
      have hlen' : (daysFrom cfg d).length ≤ n := by
        have := congrArg List.length hsplit
        simp at this
        omega
      have hnf' : ∀ x ∈ daysFrom cfg d, fs x ≠ .fatal := by
        intro x hx
        exact hnf x (by rw [hsplit]; simp [hx])
      show (match readerBytes fs cfg d with
        | Except.error e => Except.error e
        | Except.ok rest => Except.ok (c ++ rest)) =
          Except.ok (catContents fs (daysFrom cfg current))
      rw [ih d hlen' hnf', hsplit, catContents_append,
        catContents_absent fs pre hpre, List.nil_append, catContents, hct]
      rfl

/-- Any fatal open error in range stops the reader with that error. -/
theorem readerBytes_fatal (fs : Int → FileRes) (cfg : RCfg) :
    ∀ (n : Nat) (current : Int), (daysFrom cfg current).length ≤ n →
      (∃ d ∈ daysFrom cfg current, fs d = .fatal) →
      readerBytes fs cfg current = .error () := by
  intro n
  induction n with
  | zero =>
    intro current hlen hf
    obtain ⟨d, hd, _⟩ := hf
    have : (daysFrom cfg current).length ≠ 0 := by
      intro h0
      rw [List.length_eq_zero.mp h0] at hd
      simp at hd
    omega
  | succ n ih =>
    intro current hlen hf
    rw [readerBytes]
    cases hc : nextFile fs cfg current with
    | eof cur =>
      obtain ⟨d, hd, hfat⟩ := hf
      have := nextFile_eof_all_absent fs cfg current cur hc d hd
      rw [this] at hfat
      exact absurd hfat (by simp)
    | fatal d => rfl
    | opened d c =>
      obtain ⟨hct, pre, hsplit, hpre⟩ := nextFile_opened_split fs cfg current d c hc
      obtain ⟨d0, hd0, hfat⟩ := hf
      have hd0' : d0 ∈ daysFrom cfg d := by
        rw [hsplit] at hd0
        rcases List.mem_append.mp hd0 with hp | hp
        · exact absurd (hpre d0 hp) (by rw [hfat]; simp)
        · rcases List.mem_cons.mp hp with rfl | hp
          · rw [hct] at hfat
            exact absurd hfat (by simp)
          · exact hp
      have hlen' : (daysFrom cfg d).length ≤ n := by
        have := congrArg List.length hsplit
        simp at this
        omega
      show (match readerBytes fs cfg d with
        | Except.error e => Except.error e
        | Except.ok rest => Except.ok (c ++ rest)) = Except.error ()
      rw [ih d hlen' ⟨d0, hd0', hfat⟩]

/-! ## The byte-level pull operation `reader.Read` -/

/-- Mutable state of a `reader` between `Read` calls: `r.current`, the
unread remainder of the currently open file, `r.keepFile`, and the
carry-over buffer `r.buf`. -/
structure RdState where
  current : Int
  fileRem : List Char
  keepFile : Bool
  buf : List Char
  deriving DecidableEq

/-- The error value a `Read` call can report (`io.EOF` or a fatal open
error). -/
inductive RdErr where
  | eof
  | fatal
  deriving DecidableEq

/-- Model of `reader.Read(p)` with `len(p) = l`: serve `l` bytes from the buffer if
enough are buffered; otherwise read the current file (or open the next
one) in `l`-byte chunks, growing the buffer, until enough data is buffered
or the range is exhausted.  Returns `(bytes returned, reported error)` and
the state after the call.  On `io.EOF` the remaining buffer is copied out
but — exactly as in the source — `r.buf` is not cleared. -/
def readLoop (fs : Int → FileRes) (cfg : RCfg) (l : Nat) (st : RdState) :
    (Nat × List Char × Option RdErr) × RdState :=
  if hb : l ≤ st.buf.length then
    ((l, st.buf.take l, none), { st with buf := st.buf.drop l })
  else if hk : st.keepFile then
    readLoop fs cfg l
      { st with
        buf := st.buf ++ st.fileRem.take l
        fileRem := st.fileRem.drop l
        keepFile := decide (st.fileRem ≠ []) }
  else
    match hn : nextFile fs cfg st.current with
    | .eof cur => ((st.buf.length, st.buf, some .eof), { st with current := cur })
    | .fatal cur => ((0, [], some .fatal), { st with current := cur })
    | .opened cur c =>
      readLoop fs cfg l
        { st with
          current := cur
          buf := st.buf ++ c.take l
          fileRem := c.drop l
          keepFile := decide (c ≠ []) }
termination_by
  ((cfg.endT + 86401 - st.current).toNat,
    st.fileRem.length + (if st.keepFile then 1 else 0))
decreasing_by
  · apply Prod.Lex.right
    simp only [List.length_drop, hk, if_pos]
    by_cases hfr : st.fileRem = []
    · simp [hfr]
    · have : 0 < st.fileRem.length := List.length_pos.mpr hfr
      simp [hfr]
      omega
  · apply Prod.Lex.left
    have := nextFile_opened_bounds fs cfg st.current cur c hn
    omega

/-! ## Line tokenization (`bufio.ScanLines`) -/

/-- Model of Go's `dropCR`: `bufio.ScanLines` strips one trailing carriage return from
each line. -/
def dropCR (l : List Char) : List Char :=
  if l ≠ [] ∧ l.getLast? = some '\r' then l.dropLast else l

/-- Split a byte stream into newline-terminated tokens the way
`bufio.ScanLines` does: a token per newline, and a final unterminated
token only when nonempty.  The accumulator holds the bytes of the current
unfinished line. -/
def splitLinesAux : List Char → List Char → List (List Char)
  | [], acc => if acc = [] then [] else [dropCR acc]
  | c :: rest, acc =>
    if c = '\n' then dropCR acc :: splitLinesAux rest []
    else splitLinesAux rest (acc ++ [c])

/-- The sequence of lines the `bufio.Scanner` produces from a byte
stream. -/
def splitLines (bs : List Char) : List (List Char) :=
  splitLinesAux bs []

/-- Join newline-terminated lines back into a byte stream (the shape of a
partition file written by `save`). -/
def joinLines (ls : List (List Char)) : List Char :=
  ls.foldr (fun l acc => l ++ '\n' :: acc) []

/-! ## The full query pipeline -/

/-- Running `DB.Query(table, start, end, offset, size)` followed by draining the
scanner: the reader's byte stream is tokenized into lines and scanned with
`offset`, `limit = offset + size` and filter `flt` (set via `SetFilter`;
`Query` itself leaves it empty).  `Except.error` models a fatal open error
reaching the scanner.  The `.ok` payload is the list of yielded records
and the final sticky-error flag. -/
def queryRun (fs : Int → FileRes) (start endT : Int) (offset size : Nat)
    (flt : List Char) : Except Unit (List DataPoint × Bool) :=
  match readerBytes fs ⟨start, endT⟩ zeroTimeSec with
  | .error _ => .error ()
  | .ok bs =>
    .ok (scanDrain ⟨start, offset, offset + size, flt⟩ (splitLines bs) 0 false)

/-! ## The write path `DB.save`

`save` computes the target path, locks the mutex, switches the cached
handle on a path change (close old, `MkdirAll`, `OpenFile` append), and
appends one line.  The filesystem side is abstracted by a success oracle
per operation; handle activity is reported as an event list. -/

/-- A write target, determining `getTablePath(t, table)`: the local
calendar day bucket of `t` and the table name. -/
structure Target where
  day : Int
  table : String
  deriving DecidableEq

/-- Model of `db.getTablePath(t, table)`: one file per (day, table). -/
def getTablePath (t : Int) (table : String) : Target :=
  ⟨t.fdiv 86400, table⟩

/-- Handle events of the write cache: closing the cached handle, opening
the file of a target. -/
inductive WEvent where
  | cls
  | opn : Target → WEvent
  deriving DecidableEq

/-- Success oracle for the filesystem operations of one `save` call. -/
structure SaveEnv where
  mkdirOk : Bool
  openOk : Bool
  writeOk : Bool
  deriving DecidableEq

/-- The error cases `save` returns. -/
inductive SaveErr where
  | dirErr
  | openErr
  | writeErr
  deriving DecidableEq

/-- The `DB` fields `save` touches: whether the exclusive lock is held,
the cached handle `db.file` (identified by its target) and
`db.writePath`. -/
structure DBW where
  locked : Bool
  file : Option Target
  writePath : Option Target
  deriving DecidableEq

/-- The state after `New(path)`: no cached handle, empty write path, lock free. -/
def newDB : DBW := ⟨false, none, none⟩

/-- Model of `DB.save(t, table, data)` (the body of both `Save` and `Insert`).
The first component is the returned error, the second the state of the
`DB` after the call, the third the handle events in order.  Faithful to
the source, `mutex.Unlock()` is reached only on the success path: every
error return leaves `locked = true`. -/
def save (env : SaveEnv) (st : DBW) (t : Int) (table : String) :
    Except SaveErr Unit × DBW × List WEvent :=
  if st.file = none ∨ st.writePath ≠ some (getTablePath t table) then
    if env.mkdirOk = false then
      (.error .dirErr, ⟨true, none, st.writePath⟩,
        if st.file = none then [] else [.cls])
    else if env.openOk = false then
      (.error .openErr, ⟨true, none, st.writePath⟩,
        if st.file = none then [] else [.cls])
    else if env.writeOk = false then
      (.error .writeErr,
        ⟨true, some (getTablePath t table), some (getTablePath t table)⟩,
        (if st.file = none then [] else [.cls]) ++ [.opn (getTablePath t table)])
    else
      (.ok (),
        ⟨false, some (getTablePath t table), some (getTablePath t table)⟩,
        (if st.file = none then [] else [.cls]) ++ [.opn (getTablePath t table)])
  else
    if env.writeOk = false then (.error .writeErr, ⟨true, st.file, st.writePath⟩, [])
    else (.ok (), ⟨false, st.file, st.writePath⟩, [])

/-- A sequence of `save` calls on one handle, with the concatenated handle
events. -/
def saveSeq (env : SaveEnv) : DBW → List (Int × String) → DBW × List WEvent
  | st, [] => (st, [])
  | st, (t, tb) :: rest =>
    ((saveSeq env (save env st t tb).2.1 rest).1,
      (save env st t tb).2.2 ++ (saveSeq env (save env st t tb).2.1 rest).2)

/-- Number of `opn` events. -/
def countOpn : List WEvent → Nat
  | [] => 0
  | .opn _ :: rest => countOpn rest + 1
  | .cls :: rest => countOpn rest

/-- Number of `cls` events. -/
def countCls : List WEvent → Nat
  | [] => 0
  | .cls :: rest => countCls rest + 1
  | .opn _ :: rest => countCls rest

/-- Starting from `h` open handles, is every open performed with zero
handles open and every close with exactly one?  This expresses both "at
most one write handle open at any time" and "the previous handle is fully
closed before the next is opened". -/
def balOK : Int → List WEvent → Bool
  | h, [] => true
  | h, .cls :: rest => decide (h = 1) && balOK (h - 1) rest
  | h, .opn _ :: rest => decide (h = 0) && balOK (h + 1) rest

/-- Final handle count after a list of events. -/
def balAfter : Int → List WEvent → Int
  | h, [] => h
  | h, .cls :: rest => balAfter (h - 1) rest
  | h, .opn _ :: rest => balAfter (h + 1) rest

/-- Handles held by a `DB` state: one iff a file is cached. -/
def handles (st : DBW) : Int := if st.file = none then 0 else 1

/-- The nominal environment: every filesystem operation succeeds. -/
def envOK : SaveEnv := ⟨true, true, true⟩

/-! ## Lemmas: the write cache -/

theorem save_envOK_miss (st : DBW) (t : Int) (tb : String)
    (h : st.file = none ∨ st.writePath ≠ some (getTablePath t tb)) :
    save envOK st t tb =
      (.ok (), ⟨false, some (getTablePath t tb), some (getTablePath t tb)⟩,
        (if st.file = none then [] else [.cls]) ++ [.opn (getTablePath t tb)]) := by
  rw [save, if_pos h]
  rfl

theorem save_envOK_hit (st : DBW) (t : Int) (tb : String)
    (h : ¬ (st.file = none ∨ st.writePath ≠ some (getTablePath t tb))) :
    save envOK st t tb = (.ok (), ⟨false, st.file, st.writePath⟩, []) := by
  rw [save, if_neg h]
  rfl

theorem balOK_append :
    ∀ (xs ys : List WEvent) (h : Int),
      balOK h (xs ++ ys) = (balOK h xs && balOK (balAfter h xs) ys) := by
  intro xs
  induction xs with
  | nil => intro ys h; simp [balOK, balAfter]
  | cons e rest ih =>
    intro ys h
    cases e with
    | cls => simp [balOK, balAfter, ih, Bool.and_assoc]
    | opn tgt => simp [balOK, balAfter, ih, Bool.and_assoc]

theorem countOpn_append :
    ∀ (xs ys : List WEvent), countOpn (xs ++ ys) = countOpn xs + countOpn ys := by
  intro xs
  induction xs with
  | nil => intro ys; simp [countOpn]
  | cons e rest ih =>
    intro ys
    cases e with
    | cls => simp [countOpn, ih]
    | opn tgt => simp [countOpn, ih]; omega

theorem countCls_append :
    ∀ (xs ys : List WEvent), countCls (xs ++ ys) = countCls xs + countCls ys := by
  intro xs
  induction xs with
  | nil => intro ys; simp [countCls]
  | cons e rest ih =>
    intro ys
    cases e with
    | cls => simp [countCls, ih]; omega
    | opn tgt => simp [countCls, ih]

/-- Every sequence of successful saves keeps the handle balance sound:
opens happen only with no handle cached, closes only with exactly one. -/
theorem saveSeq_balOK :
    ∀ (ts : List (Int × String)) (st : DBW),
      balOK (handles st) (saveSeq envOK st ts).2 = true := by
  intro ts
  induction ts with
  | nil => intro st; rfl
  | cons p rest ih =>
    intro st
    obtain ⟨t, tb⟩ := p
    rw [saveSeq, balOK_append]
    by_cases hcond : st.file = none ∨ st.writePath ≠ some (getTablePath t tb)
    · rw [save_envOK_miss st t tb hcond]
      by_cases hf : st.file = none
      · have hh := ih (⟨false, some (getTablePath t tb), some (getTablePath t tb)⟩ : DBW)
        simp only [handles] at hh
        simp [hf, balOK, balAfter, handles]
        simpa using hh
      · have hh := ih (⟨false, some (getTablePath t tb), some (getTablePath t tb)⟩ : DBW)
        simp only [handles] at hh
        simp [hf, balOK, balAfter, handles]
        simpa using hh
    · rw [save_envOK_hit st t tb hcond]
      push_neg at hcond
      have hh := ih (⟨false, st.file, st.writePath⟩ : DBW)
      simp only [handles, hcond.1] at hh ⊢
      simp [balOK, balAfter]
      simpa [hcond.1] using hh

/-- Cache hits generate no handle events: saving repeatedly to the cached
target neither closes nor opens anything. -/
theorem saveSeq_hits_trace (tgt : Target) :
    ∀ (ts : List (Int × String)) (b : Bool),
      (∀ x ∈ ts, getTablePath x.1 x.2 = tgt) →
      (saveSeq envOK ⟨b, some tgt, some tgt⟩ ts).2 = [] := by
  intro ts
  induction ts with
  | nil => intro b h; rfl
  | cons p rest ih =>
    intro b h
    obtain ⟨t, tb⟩ := p
    have htgt : getTablePath t tb = tgt := h (t, tb) (List.mem_cons_self _ _)
    have hcond : ¬ ((⟨b, some tgt, some tgt⟩ : DBW).file = none ∨
        (⟨b, some tgt, some tgt⟩ : DBW).writePath ≠ some (getTablePath t tb)) := by
      rw [htgt]
      simp
    rw [saveSeq, save_envOK_hit _ t tb hcond]
    exact ih false fun x hx => h x (List.mem_cons_of_mem _ hx)

/-- Writing any number of records to one and the same target from a fresh
handle opens exactly one file and closes none. -/
theorem saveSeq_same_target (tgt : Target) (ts : List (Int × String))
    (hne : ts ≠ []) (hall : ∀ x ∈ ts, getTablePath x.1 x.2 = tgt) :
    countOpn (saveSeq envOK newDB ts).2 = 1 ∧
      countCls (saveSeq envOK newDB ts).2 = 0 := by
  cases ts with
  | nil => exact absurd rfl hne
  | cons p rest =>
    obtain ⟨t, tb⟩ := p
    have htgt : getTablePath t tb = tgt := hall (t, tb) (List.mem_cons_self _ _)
    have hcond : newDB.file = none ∨ newDB.writePath ≠ some (getTablePath t tb) := by
      left
      rfl
    rw [saveSeq, save_envOK_miss _ t tb hcond]
    have hrest := saveSeq_hits_trace tgt rest false
      (fun x hx => hall x (List.mem_cons_of_mem _ hx))
    rw [htgt, hrest]
    simp [newDB, countOpn_append, countCls_append, countOpn, countCls]

/-- Writing to pairwise distinct targets while a handle for a different
target is cached closes and reopens exactly once per save. -/
theorem saveSeq_distinct :
    ∀ (ts : List (Int × String)) (b : Bool) (p0 : Target),
      (ts.map fun x => getTablePath x.1 x.2).Pairwise (· ≠ ·) →
      p0 ∉ ts.map (fun x => getTablePath x.1 x.2) →
      countOpn (saveSeq envOK ⟨b, some p0, some p0⟩ ts).2 = ts.length ∧
        countCls (saveSeq envOK ⟨b, some p0, some p0⟩ ts).2 = ts.length := by
  intro ts
  induction ts with
  | nil => intro b p0 hpw hmem; exact ⟨rfl, rfl⟩
  | cons p rest ih =>
    intro b p0 hpw hmem
    obtain ⟨t, tb⟩ := p
    have hne : p0 ≠ getTablePath t tb := by
      intro hh
      exact hmem (by rw [List.map_cons, hh]; exact List.mem_cons_self _ _)
    have hcond : (⟨b, some p0, some p0⟩ : DBW).file = none ∨
        (⟨b, some p0, some p0⟩ : DBW).writePath ≠ some (getTablePath t tb) := by
      right
      simp [hne]
    rw [saveSeq, save_envOK_miss _ t tb hcond]
    rw [List.map_cons] at hpw hmem
    have hpw' := List.Pairwise.of_cons hpw
    have hhead : ∀ y ∈ rest.map (fun x => getTablePath x.1 x.2),
        getTablePath t tb ≠ y := (List.pairwise_cons.mp hpw).1
    have hmem' : getTablePath t tb ∉ rest.map (fun x => getTablePath x.1 x.2) :=
      fun hx => (hhead _ hx) rfl
    have := ih false (getTablePath t tb) hpw' hmem'
    rw [show (if (⟨b, some p0, some p0⟩ : DBW).file = none then ([] : List WEvent)
      else [.cls]) = [.cls] from rfl]
    rw [countOpn_append, countCls_append, this.1, this.2]
    constructor <;> simp [countOpn, countCls] <;> omega

/-! ## Lemmas: line tokenization and the pipeline -/

theorem dropCR_eq (l : List Char) (h : l.getLast? ≠ some '\r') : dropCR l = l := by
  rw [dropCR, if_neg]
  intro hc
  exact h hc.2

theorem splitLinesAux_no_newline (l : List Char) :
    ∀ (rest acc : List Char), (∀ c ∈ l, c ≠ '\n') →
      splitLinesAux (l ++ rest) acc = splitLinesAux rest (acc ++ l) := by
  induction l with
  | nil => intro rest acc h; simp
  | cons c cs ih =>
    intro rest acc h
    have hc : ¬ (c = '\n') := h c (List.mem_cons_self _ _)
    simp only [List.cons_append, splitLinesAux, if_neg hc, List.append_eq]
    rw [ih rest (acc ++ [c]) (fun x hx => h x (List.mem_cons_of_mem _ hx))]
    rw [List.append_assoc, List.singleton_append]

theorem splitLinesAux_join (ls : List (List Char)) :
    ∀ rest : List Char, (∀ l ∈ ls, ∀ c ∈ l, c ≠ '\n') →
      splitLinesAux (joinLines ls ++ rest) [] =
        ls.map dropCR ++ splitLinesAux rest [] := by
  induction ls with
  | nil => intro rest h; simp [joinLines]
  | cons l ls ih =>
    intro rest h
    have hl : ∀ c ∈ l, c ≠ '\n' := h l (List.mem_cons_self _ _)
    have hjoin : joinLines (l :: ls) = l ++ '\n' :: joinLines ls := rfl
    rw [hjoin, List.append_assoc, List.cons_append,
      splitLinesAux_no_newline l _ [] hl, List.nil_append]
    rw [show splitLinesAux ('\n' :: (joinLines ls ++ rest)) l =
        dropCR l :: splitLinesAux (joinLines ls ++ rest) [] from by
      rw [splitLinesAux, if_pos rfl]]
    rw [ih rest (fun x hx => h x (List.mem_cons_of_mem _ hx))]
    rfl

theorem map_dropCR_eq (ls : List (List Char))
    (h : ∀ l ∈ ls, l.getLast? ≠ some '\r') : ls.map dropCR = ls := by
  induction ls with
  | nil => rfl
  | cons l rest ih =>
    rw [List.map_cons, dropCR_eq l (h l (List.mem_cons_self _ _)),
      ih fun x hx => h x (List.mem_cons_of_mem _ hx)]

/-- Tokenizing a stream of newline-terminated lines gives back exactly
those lines. -/
theorem splitLines_joinLines (ls : List (List Char))
    (h : ∀ l ∈ ls, (∀ c ∈ l, c ≠ '\n') ∧ l.getLast? ≠ some '\r') :
    splitLines (joinLines ls) = ls := by
  have haux := splitLinesAux_join ls [] (fun l hl => (h l hl).1)
  rw [List.append_nil] at haux
  rw [splitLines, haux]
  rw [show splitLinesAux [] [] = [] from rfl, List.append_nil]
  exact map_dropCR_eq ls fun l hl => (h l hl).2

theorem joinLines_append (xs ys : List (List Char)) :
    joinLines (xs ++ ys) = joinLines xs ++ joinLines ys := by
  induction xs with
  | nil => rfl
  | cons l rest ih =>
    show l ++ '\n' :: joinLines (rest ++ ys) = (l ++ '\n' :: joinLines rest) ++ joinLines ys
    rw [ih, List.append_assoc, List.cons_append]

/-- A filesystem described by per-day optional line lists (`none` models a
day with no partition file). -/
def fsOfLines (fl : Int → Option (List (List Char))) : Int → FileRes :=
  fun d =>
    match fl d with
    | none => .absent
    | some ls => .content (joinLines ls)

/-- The lines a day contributes (none when the day's file is absent). -/
def linesOf (fl : Int → Option (List (List Char))) (d : Int) : List (List Char) :=
  (fl d).getD []

/-- All lines of the given days concatenated in day order. -/
def catLines (fl : Int → Option (List (List Char))) : List Int → List (List Char)
  | [] => []
  | d :: rest => linesOf fl d ++ catLines fl rest

theorem catContents_fsOfLines (fl : Int → Option (List (List Char)))
    (ds : List Int) :
    catContents (fsOfLines fl) ds = joinLines (catLines fl ds) := by
  induction ds with
  | nil => rfl
  | cons d rest ih =>
    rw [catContents, catLines, joinLines_append, ih]
    have : contentOf (fsOfLines fl d) = joinLines (linesOf fl d) := by
      cases hd : fl d <;> simp [fsOfLines, linesOf, hd, contentOf, joinLines]
    rw [this]

theorem mem_catLines (fl : Int → Option (List (List Char))) :
    ∀ (ds : List Int) (l : List Char),
      l ∈ catLines fl ds → ∃ d ∈ ds, l ∈ linesOf fl d := by
  intro ds
  induction ds with
  | nil => intro l hl; simp [catLines] at hl
  | cons d rest ih =>
    intro l hl
    rcases List.mem_append.mp hl with hm | hm
    · exact ⟨d, List.mem_cons_self _ _, hm⟩
    · obtain ⟨d', hd', hm'⟩ := ih l hm
      exact ⟨d', List.mem_cons_of_mem _ hd', hm'⟩

/-- The reader/tokenizer front half of a query over a well-formed
filesystem: the scanner sees exactly the lines of the existing day files
in calendar order. -/
theorem queryRun_ok (fl : Int → Option (List (List Char))) (start endT : Int)
    (offset size : Nat) (flt : List Char)
    (h : ∀ d ∈ daysFrom ⟨start, endT⟩ zeroTimeSec, ∀ l ∈ linesOf fl d,
      (∀ c ∈ l, c ≠ '\n') ∧ l.getLast? ≠ some '\r') :
    queryRun (fsOfLines fl) start endT offset size flt =
      .ok (scanDrain ⟨start, offset, offset + size, flt⟩
        (catLines fl (daysFrom ⟨start, endT⟩ zeroTimeSec)) 0 false) := by
  have hnf : ∀ d ∈ daysFrom ⟨start, endT⟩ zeroTimeSec, fsOfLines fl d ≠ .fatal := by
    intro d hd
    cases hfl : fl d <;> simp [fsOfLines, hfl]
  rw [queryRun, readerBytes_ok (fsOfLines fl) ⟨start, endT⟩
    (daysFrom ⟨start, endT⟩ zeroTimeSec).length zeroTimeSec le_rfl hnf]
  show Except.ok (scanDrain _ (splitLines (catContents (fsOfLines fl)
    (daysFrom ⟨start, endT⟩ zeroTimeSec))) 0 false) = _
  rw [catContents_fsOfLines]
  have hlines : ∀ l ∈ catLines fl (daysFrom ⟨start, endT⟩ zeroTimeSec),
      (∀ c ∈ l, c ≠ '\n') ∧ l.getLast? ≠ some '\r' := by
    intro l hl
    obtain ⟨d, hd, hld⟩ := mem_catLines fl _ l hl
    exact h d hd l hld
  rw [splitLines_joinLines _ hlines]

/-! ## Lemmas: the exhausted reader -/

theorem nextFile_past_end (fs : Int → FileRes) (cfg : RCfg) (current : Int)
    (h1 : cfg.endT < current) (h2 : cfg.start ≤ current) :
    nextFile fs cfg current = .eof (current + 86400) := by
  have hstep : stepDay cfg current = current + 86400 := by
    rw [stepDay, if_neg (by omega)]
  rw [nextFile, hstep, dif_pos (by omega)]

/-- Once every partition in range is exhausted, a pull whose request
exceeds the buffered remainder returns the whole remainder with `io.EOF`
and advances only `r.current` — in particular `r.buf` keeps its bytes. -/
theorem readLoop_exhausted (fs : Int → FileRes) (cfg : RCfg) (l : Nat)
    (st : RdState) (h1 : cfg.endT < st.current) (h2 : cfg.start ≤ st.current)
    (hk : st.keepFile = false) (hb : st.buf.length < l) :
    readLoop fs cfg l st =
      ((st.buf.length, st.buf, some .eof),
        { st with current := st.current + 86400 }) := by
  have hnf := nextFile_past_end fs cfg st.current h1 h2
  rw [readLoop, dif_neg (by omega), dif_neg (by simp [hk])]
  split
  next cur heq =>
    rw [hnf] at heq
    cases heq
    rfl
  next cur heq =>
    rw [hnf] at heq
    cases heq
  next cur c heq =>
    rw [hnf] at heq
    cases heq

/-! ## Lemmas: the visited days are strictly increasing -/

theorem daysFrom_lt (cfg : RCfg) :
    ∀ current, ∀ d ∈ daysFrom cfg current, current < d := by
  intro current
  induction current using daysFrom.induct cfg with
  | case1 current h =>
    intro d hd
    rw [daysFrom, dif_pos h] at hd
    simp at hd
  | case2 current h ih =>
    intro d hd
    rw [daysFrom, dif_neg h] at hd
    have hst := stepDay_gt cfg current
    rcases List.mem_cons.mp hd with rfl | hd
    · exact hst
    · have := ih d hd
      omega

theorem daysFrom_pairwise (cfg : RCfg) :
    ∀ current, (daysFrom cfg current).Pairwise (· < ·) := by
  intro current
  induction current using daysFrom.induct cfg with
  | case1 current h =>
    rw [daysFrom, dif_pos h]
    exact List.Pairwise.nil
  | case2 current h ih =>
    rw [daysFrom, dif_neg h]
    exact List.pairwise_cons.mpr ⟨fun d hd => daysFrom_lt cfg _ d hd, ih⟩

/-! ## Lemmas: decimal round trip -/

theorem natDigitsAux_digit_range :
    ∀ fuel n, n < fuel → ∀ c ∈ natDigitsAux fuel n, 48 ≤ c.toNat ∧ c.toNat ≤ 57 := by
  intro fuel
  induction fuel with
  | zero => intro n h; omega
  | succ fuel ih =>
    intro n h c hc
    by_cases h10 : n < 10
    · simp only [natDigitsAux, if_pos h10, List.mem_singleton] at hc
      subst hc
      interval_cases n <;> simp
    · simp only [natDigitsAux, if_neg h10, List.mem_append, List.mem_singleton] at hc
      rcases hc with hc | hc
      · exact ih (n / 10) (by omega) c hc
      · subst hc
        have h9 : n % 10 < 10 := Nat.mod_lt _ (by omega)
        interval_cases h : n % 10 <;> simp

theorem digitsValAux_append (xs : List Char) :
    ∀ ys acc, digitsValAux acc (xs ++ ys) =
      match digitsValAux acc xs with
      | none => none
      | some a => digitsValAux a ys := by
  induction xs with
  | nil => intro ys acc; rfl
  | cons c rest ih =>
    intro ys acc
    simp only [List.cons_append, digitsValAux]
    by_cases hd : isDigitCh c = true
    · simp only [if_pos hd]; exact ih ys _
    · simp only [if_neg hd]

theorem digitsValAux_natDigitsAux :
    ∀ fuel n acc, n < fuel →
      digitsValAux acc (natDigitsAux fuel n) =
        some (acc * 10 ^ (natDigitsAux fuel n).length + n) := by
  intro fuel
  induction fuel with
  | zero => intro n acc h; omega
  | succ fuel ih =>
    intro n acc h
    by_cases h10 : n < 10
    · simp only [natDigitsAux, if_pos h10]
      have hv : (Char.ofNat (48 + n)).toNat = 48 + n := by
        interval_cases n <;> decide
      have hd : isDigitCh (Char.ofNat (48 + n)) = true := by
        interval_cases n <;> decide
      simp only [digitsValAux, if_pos hd, hv, List.length_singleton, pow_one]
      congr 1
      omega
    · simp only [natDigitsAux, if_neg h10]
      rw [digitsValAux_append]
      have hlt : n / 10 < fuel := by omega
      rw [ih (n / 10) acc hlt]
      have h9 : n % 10 < 10 := Nat.mod_lt _ (by omega)
      have hv : (Char.ofNat (48 + n % 10)).toNat = 48 + n % 10 := by
        interval_cases h : n % 10 <;> decide
      have hd : isDigitCh (Char.ofNat (48 + n % 10)) = true := by
        interval_cases h : n % 10 <;> decide
      simp only [digitsValAux, if_pos hd, hv, List.length_append,
        List.length_singleton, Nat.add_sub_cancel_left]
      congr 1
      have hmod : n / 10 * 10 + n % 10 = n := by omega
      calc (acc * 10 ^ (natDigitsAux fuel (n / 10)).length + n / 10) * 10 + n % 10
          = acc * (10 ^ (natDigitsAux fuel (n / 10)).length * 10) +
              (n / 10 * 10 + n % 10) := by ring
        _ = acc * 10 ^ ((natDigitsAux fuel (n / 10)).length + 1) + n := by
              rw [hmod, pow_succ]

theorem digitsVal_natDigits (n : Nat) : digitsValAux 0 (natDigits n) = some n := by
  have := digitsValAux_natDigitsAux (n + 1) n 0 (by omega)
  simpa [natDigits] using this

theorem natDigits_digit_range :
    ∀ n, ∀ c ∈ natDigits n, 48 ≤ c.toNat ∧ c.toNat ≤ 57 := by
  intro n
  exact natDigitsAux_digit_range (n + 1) n (by omega)

theorem natDigits_ne_nil (n : Nat) : natDigits n ≠ [] := by
  by_cases h10 : n < 10 <;>
    simp [natDigits, natDigitsAux, h10]

theorem parseIntCore_digits (n : Nat) (hn : n < 2 ^ 63) :
    parseIntCore false (natDigits n) = some (n : Int) := by
  rw [parseIntCore, if_neg (natDigits_ne_nil n), digitsVal_natDigits]
  show (if n < 2 ^ 63 then some ((n : Int)) else none) = some ((n : Int))
  rw [if_pos hn]

theorem parseIntCore_neg_digits (n : Nat) (hn : n ≤ 2 ^ 63) :
    parseIntCore true (natDigits n) = some (-(n : Int)) := by
  rw [parseIntCore, if_neg (natDigits_ne_nil n), digitsVal_natDigits]
  show (if n ≤ 2 ^ 63 then some (-(n : Int)) else none) = some (-(n : Int))
  rw [if_pos hn]

theorem parseIntGo_goFormatInt (t : Int) (h₁ : -(2 ^ 63) ≤ t) (h₂ : t < 2 ^ 63) :
    parseIntGo (goFormatInt t) = some t := by
  by_cases hneg : t < 0
  · rw [goFormatInt, if_pos hneg, parseIntGo]
    have hpm : ¬ ('-' = '+') := by decide
    rw [if_neg hpm, if_pos rfl]
    have hle : (-t).toNat ≤ 2 ^ 63 := by omega
    rw [parseIntCore_neg_digits _ hle]
    congr 1
    omega
  · rw [goFormatInt, if_neg hneg]
    obtain ⟨c, rest, hcons⟩ : ∃ c rest, natDigits t.toNat = c :: rest := by
      cases h : natDigits t.toNat with
      | nil => exact absurd h (natDigits_ne_nil _)
      | cons c rest => exact ⟨c, rest, rfl⟩
    have hc : 48 ≤ c.toNat ∧ c.toNat ≤ 57 :=
      natDigits_digit_range t.toNat c (by rw [hcons]; exact List.mem_cons_self _ _)
    have hplus : ¬ (c = '+') := by
      intro hh
      rw [hh] at hc
      revert hc
      decide
    have hminus : ¬ (c = '-') := by
      intro hh
      rw [hh] at hc
      revert hc
      decide
    rw [hcons, parseIntGo, if_neg hplus, if_neg hminus, ← hcons]
    have hn : t.toNat < 2 ^ 63 := by omega
    rw [parseIntCore_digits t.toNat hn]
    congr 1
    omega

/-! ## Lemmas: splitting at the first space -/

theorem breakAtSpace_append (l : List Char) (r : List Char)
    (h : ∀ c ∈ l, c ≠ ' ') :
    breakAtSpace (l ++ ' ' :: r) = some (l, ' ' :: r) := by
  induction l with
  | nil => simp [breakAtSpace]
  | cons c rest ih =>
    have hc : ¬ (c = ' ') := h c (List.mem_cons_self _ _)
    have hrest : ∀ x ∈ rest, x ≠ ' ' := fun x hx => h x (List.mem_cons_of_mem _ hx)
    simp only [List.cons_append, breakAtSpace, if_neg hc, List.append_eq]
    rw [ih hrest]

theorem goFormatInt_no_space (t : Int) : ∀ c ∈ goFormatInt t, c ≠ ' ' := by
  intro c hc
  rw [goFormatInt] at hc
  by_cases hneg : t < 0
  · rw [if_pos hneg] at hc
    rcases List.mem_cons.mp hc with h | h
    · subst h; decide
    · have := natDigits_digit_range _ c h
      intro hsp; subst hsp; simp at this
  · rw [if_neg hneg] at hc
    have := natDigits_digit_range _ c hc
    intro hsp; subst hsp; simp at this

/-- Decoding the line written for `(t, s)`: the timestamp comes back
exactly, the text comes back with the separating space still attached. -/
theorem lineData_encodeLine (t : Int) (s : List Char)
    (h₁ : -(2 ^ 63) ≤ t) (h₂ : t < 2 ^ 63) :
    lineData (encodeLine t s) = some ⟨t, ' ' :: s⟩ := by
  rw [encodeLine, lineData, breakAtSpace_append _ _ (goFormatInt_no_space t)]
  show (match parseIntGo (goFormatInt t) with
    | none => none
    | some e => some (⟨e, ' ' :: s⟩ : DataPoint)) = some ⟨t, ' ' :: s⟩
  rw [parseIntGo_goFormatInt t h₁ h₂]

/-! ## Lemmas: the record scanner -/

theorem qualifies_false_of_skip (cfg : ScanCfg) (line : List Char)
    (ht : (dataOrZero line).time < cfg.start) : qualifies cfg line = false := by
  simp [qualifies, ht]

theorem qualifies_false_of_filter (cfg : ScanCfg) (line : List Char)
    (hf : cfg.filter ≠ []) (hs : hasSub line cfg.filter = false) :
    qualifies cfg line = false := by
  simp [qualifies, hf, hs]

theorem qualifies_true (cfg : ScanCfg) (line : List Char)
    (ht : ¬ (dataOrZero line).time < cfg.start)
    (hb : ¬ (cfg.filter ≠ [] ∧ hasSub line cfg.filter = false)) :
    qualifies cfg line = true := by
  by_cases hf : cfg.filter = []
  · simp [qualifies, ht, hf]
  · have hs : hasSub line cfg.filter = true := by
      by_contra hss
      exact hb ⟨hf, by simpa using hss⟩
    simp [qualifies, ht, hf, hs]

/-- Draining an unlimited scanner (`limit = 0`): it emits every qualifying
line from qualifying position `offset` on, decoded. -/
theorem scanDrain_fst_no_limit (cfg : ScanCfg) (h : cfg.limit = 0) :
    ∀ (lines : List (List Char)) (i : Nat) (e : Bool),
      (scanDrain cfg lines i e).1 =
        ((lines.filter (qualifies cfg)).map dataOrZero).drop (cfg.offset - i) := by
  intro lines
  induction lines with
  | nil => intro i e; simp [scanDrain]
  | cons line rest ih =>
    intro i e
    have hlim : ¬ (0 < cfg.limit ∧ cfg.limit ≤ i) := by omega
    by_cases ht : (dataOrZero line).time < cfg.start
    · rw [scanDrain, if_neg hlim, if_pos ht, List.filter_cons,
        if_neg (by simp [qualifies_false_of_skip cfg line ht])]
      exact ih i _
    · by_cases hb : cfg.filter ≠ [] ∧ hasSub line cfg.filter = false
      · rw [scanDrain, if_neg hlim, if_neg ht, if_pos hb, List.filter_cons,
          if_neg (by simp [qualifies_false_of_filter cfg line hb.1 hb.2])]
        exact ih i _
      · have hq := qualifies_true cfg line ht hb
        by_cases ho : i < cfg.offset
        · rw [scanDrain, if_neg hlim, if_neg ht, if_neg hb, if_pos ho,
            List.filter_cons, if_pos (by simp [hq]), List.map_cons]
          have harith : cfg.offset - i = (cfg.offset - (i + 1)) + 1 := by omega
          rw [harith, List.drop_succ_cons]
          exact ih (i + 1) _
        · rw [scanDrain, if_neg hlim, if_neg ht, if_neg hb, if_neg ho,
            List.filter_cons, if_pos (by simp [hq]), List.map_cons]
          have h0 : cfg.offset - i = 0 := by omega
          have h1 : cfg.offset - (i + 1) = 0 := by omega
          rw [h0, List.drop_zero, ih (i + 1)]
          rw [h1, List.drop_zero]

/-- Draining a limited scanner (`limit > 0`): the emitted stream is
additionally cut to the qualifying positions below `limit`. -/
theorem scanDrain_fst_limit (cfg : ScanCfg) (h : 0 < cfg.limit) :
    ∀ (lines : List (List Char)) (i : Nat) (e : Bool),
      (scanDrain cfg lines i e).1 =
        (((lines.filter (qualifies cfg)).map dataOrZero).drop
            (cfg.offset - i)).take (cfg.limit - max i cfg.offset) := by
  intro lines
  induction lines with
  | nil => intro i e; simp [scanDrain]
  | cons line rest ih =>
    intro i e
    by_cases hil : cfg.limit ≤ i
    · have hcap : cfg.limit - max i cfg.offset = 0 := by omega
      rw [scanDrain, if_pos ⟨h, hil⟩, hcap, List.take_zero]
    · have hlim : ¬ (0 < cfg.limit ∧ cfg.limit ≤ i) := by omega
      by_cases ht : (dataOrZero line).time < cfg.start
      · rw [scanDrain, if_neg hlim, if_pos ht, List.filter_cons,
          if_neg (by simp [qualifies_false_of_skip cfg line ht])]
        exact ih i _
      · by_cases hb : cfg.filter ≠ [] ∧ hasSub line cfg.filter = false
        · rw [scanDrain, if_neg hlim, if_neg ht, if_pos hb, List.filter_cons,
            if_neg (by simp [qualifies_false_of_filter cfg line hb.1 hb.2])]
          exact ih i _
        · have hq := qualifies_true cfg line ht hb
          by_cases ho : i < cfg.offset
          · rw [scanDrain, if_neg hlim, if_neg ht, if_neg hb, if_pos ho,
              List.filter_cons, if_pos (by simp [hq]), List.map_cons]
            have harith : cfg.offset - i = (cfg.offset - (i + 1)) + 1 := by omega
            have hcap : cfg.limit - max i cfg.offset =
                cfg.limit - max (i + 1) cfg.offset := by omega
            rw [harith, List.drop_succ_cons, hcap]
            exact ih (i + 1) _
          · rw [scanDrain, if_neg hlim, if_neg ht, if_neg hb, if_neg ho,
              List.filter_cons, if_pos (by simp [hq]), List.map_cons]
            have h0 : cfg.offset - i = 0 := by omega
            have h1 : cfg.offset - (i + 1) = 0 := by omega
            have hcap : cfg.limit - max i cfg.offset = (cfg.limit - max (i + 1) cfg.offset) + 1 := by
              omega
            rw [h0, List.drop_zero, hcap, List.take_succ_cons, ih (i + 1)]
            rw [h1, List.drop_zero]

/-- The sticky-error flag after an unlimited drain: set exactly when the
initial flag was set or some line failed to decode. -/
theorem scanDrain_snd_no_limit (cfg : ScanCfg) (h : cfg.limit = 0) :
    ∀ (lines : List (List Char)) (i : Nat) (e : Bool),
      (scanDrain cfg lines i e).2 =
        (e || lines.any (fun l => (lineData l).isNone)) := by
  intro lines
  induction lines with
  | nil => intro i e; simp [scanDrain]
  | cons line rest ih =>
    intro i e
    have hlim : ¬ (0 < cfg.limit ∧ cfg.limit ≤ i) := by omega
    rw [List.any_cons]
    by_cases ht : (dataOrZero line).time < cfg.start
    · rw [scanDrain, if_neg hlim, if_pos ht, ih i]
      simp [Bool.or_assoc]
    · by_cases hb : cfg.filter ≠ [] ∧ hasSub line cfg.filter = false
      · rw [scanDrain, if_neg hlim, if_neg ht, if_pos hb, ih i]
        simp [Bool.or_assoc]
      · by_cases ho : i < cfg.offset
        · rw [scanDrain, if_neg hlim, if_neg ht, if_neg hb, if_pos ho, ih (i + 1)]
          simp [Bool.or_assoc]
        · rw [scanDrain, if_neg hlim, if_neg ht, if_neg hb, if_neg ho, ih (i + 1)]
          simp [Bool.or_assoc]

/-- Driving `Scanner.Scan` step by step is the same as draining: each call
either ends the stream or contributes exactly its emitted record. -/
theorem scanScan_drain (cfg : ScanCfg) :
    ∀ (lines : List (List Char)) (i : Nat) (e : Bool),
      scanDrain cfg lines i e =
        (match scanScan cfg lines i e with
          | (none, _, e') => ([], e')
          | (some (d, rest), i', e') =>
            (d :: (scanDrain cfg rest i' e').1, (scanDrain cfg rest i' e').2)) := by
  intro lines
  induction lines with
  | nil => intro i e; rfl
  | cons line rest ih =>
    intro i e
    by_cases hlim : 0 < cfg.limit ∧ cfg.limit ≤ i
    · rw [scanDrain, if_pos hlim, scanScan, if_pos hlim]
    · by_cases ht : (dataOrZero line).time < cfg.start
      · rw [scanDrain, if_neg hlim, if_pos ht, scanScan, if_neg hlim, if_pos ht]
        exact ih i _
      · by_cases hb : cfg.filter ≠ [] ∧ hasSub line cfg.filter = false
        · rw [scanDrain, if_neg hlim, if_neg ht, if_pos hb, scanScan, if_neg hlim,
            if_neg ht, if_pos hb]
          exact ih i _
        · by_cases ho : i < cfg.offset
          · rw [scanDrain, if_neg hlim, if_neg ht, if_neg hb, if_pos ho, scanScan,
              if_neg hlim, if_neg ht, if_neg hb, if_pos ho]
            exact ih (i + 1) _
          · rw [scanDrain, if_neg hlim, if_neg ht, if_neg hb, if_neg ho, scanScan,
              if_neg hlim, if_neg ht, if_neg hb, if_neg ho]

theorem catLines_none (fl : Int → Option (List (List Char))) :
    ∀ ds : List Int, (∀ y ∈ ds, fl y = none) → catLines fl ds = [] := by
  intro ds
  induction ds with
  | nil => intro h; rfl
  | cons x rest ih =>
    intro h
    rw [catLines, linesOf, h x (List.mem_cons_self _ _)]
    exact ih fun y hy => h y (List.mem_cons_of_mem _ hy)

theorem catLines_single (fl : Int → Option (List (List Char))) (d : Int)
    (L : List (List Char)) :
    ∀ ds : List Int, ds.Pairwise (· < ·) → d ∈ ds →
      (∀ x ∈ ds, x ≠ d → fl x = none) → fl d = some L →
      catLines fl ds = L := by
  intro ds
  induction ds with
  | nil =>
    intro _ hd
    simp at hd
  | cons x rest ih =>
    intro hpw hd hnone hfld
    rcases List.mem_cons.mp hd with rfl | hd
    · have hrest : ∀ y ∈ rest, fl y = none := by
        intro y hy
        have hlt : d < y := (List.pairwise_cons.mp hpw).1 y hy
        exact hnone y (List.mem_cons_of_mem _ hy) (by omega)
      rw [catLines, linesOf, hfld, catLines_none fl rest hrest, List.append_nil]
      rfl
    · have hlt : x < d := (List.pairwise_cons.mp hpw).1 d hd
      have hx : fl x = none := hnone x (List.mem_cons_self _ _) (by omega)
      rw [catLines, linesOf, hx]
      rw [show (none : Option (List (List Char))).getD [] = [] from rfl,
        List.nil_append]
      exact ih (List.Pairwise.of_cons hpw) hd
        (fun y hy hyd => hnone y (List.mem_cons_of_mem _ hy) hyd) hfld

/-! ## Claim theorems -/

/-- C1: the claim requires the exclusive lock to be released on every exit
path of `save`.  The source violates this: evaluating `save` with a failing
`MkdirAll`, a failing `OpenFile`, or a failing append shows each error
return leaves `locked = true` (the `mutex.Unlock()` at the end of `save`
is only reached on success), so a failed save deadlocks the next call. -/
theorem claim1_lock_not_released :
    ((save ⟨false, true, true⟩ newDB 0 "logs").1 = .error .dirErr ∧
      (save ⟨false, true, true⟩ newDB 0 "logs").2.1.locked = true) ∧
    ((save ⟨true, false, true⟩ newDB 0 "logs").1 = .error .openErr ∧
      (save ⟨true, false, true⟩ newDB 0 "logs").2.1.locked = true) ∧
    ((save ⟨true, true, false⟩ newDB 0 "logs").1 = .error .writeErr ∧
      (save ⟨true, true, false⟩ newDB 0 "logs").2.1.locked = true) ∧
    ((save envOK newDB 0 "logs").1 = .ok () ∧
      (save envOK newDB 0 "logs").2.1.locked = false) := by
  refine ⟨⟨rfl, rfl⟩, ⟨rfl, rfl⟩, ⟨rfl, rfl⟩, rfl, rfl⟩

/-- C2 as stated is false: decoding the line encoded for the pair
`(0, "a")` yields the text `" a"` — `Scanner.Data` keeps everything from
the first space on, separator included — and not `"a"`. -/
theorem claim2_roundtrip_fails :
    lineData (encodeLine 0 ['a']) = some ⟨0, [' ', 'a']⟩ ∧
      (⟨0, [' ', 'a']⟩ : DataPoint) ≠ (⟨0, ['a']⟩ : DataPoint) := by
  constructor
  · decide
  · decide

/-- C2 amended: for every int64 timestamp `t` and newline-free text `s`,
decoding the encoded line yields the timestamp exactly and the text with
the leading separator space attached: `decode(encode(t, s)) = (t, " "+s)`. -/
theorem claim2_roundtrip_space (t : Int) (s : List Char)
    (h₁ : -(2 ^ 63) ≤ t) (h₂ : t < 2 ^ 63) (hnl : ∀ c ∈ s, c ≠ '\n') :
    lineData (encodeLine t s) = some ⟨t, ' ' :: s⟩ := by
  have _hnl := hnl
  exact lineData_encodeLine t s h₁ h₂

theorem claim2_roundtrip_space_witness :
    (-(2 ^ 63) ≤ (5 : Int) ∧ (5 : Int) < 2 ^ 63 ∧ (∀ c ∈ ['a', 'b'], c ≠ '\n')) ∧
      lineData (encodeLine 5 ['a', 'b']) = some ⟨5, [' ', 'a', 'b']⟩ :=
  ⟨⟨by decide, by decide, by decide⟩,
    claim2_roundtrip_space 5 ['a', 'b'] (by decide) (by decide) (by decide)⟩

/-- C3 as stated is false: with `size = 0` and `offset = 1` over a stream
with two qualifying records, `Query` configures `limit = offset + 0 = 1`,
so the scan stops after skipping the first qualifying record and yields
nothing, although the record at position 1 qualifies. -/
theorem claim3_size_zero_offset_not_unlimited :
    (scanDrain (queryCfg 0 1 0) [['5', ' ', 'a'], ['6', ' ', 'b']] 0 false).1 = [] ∧
      ((([['5', ' ', 'a'], ['6', ' ', 'b']].filter
          (qualifies (queryCfg 0 1 0))).map dataOrZero).drop 1 =
        [⟨6, [' ', 'b']⟩]) := by
  constructor
  · decide
  · decide

/-- C3 amended: `size = 0` makes the scanner unlimited only when
`offset = 0` (every qualifying record is yielded); with `size = 0` and
`offset > 0` the configured limit equals `offset` and the scanner yields
no records at all. -/
theorem claim3_size_zero_amended (start : Int) (offset : Nat)
    (lines : List (List Char)) :
    (offset = 0 →
      (scanDrain (queryCfg start 0 0) lines 0 false).1 =
        (lines.filter (qualifies (queryCfg start 0 0))).map dataOrZero) ∧
    (0 < offset →
      (scanDrain (queryCfg start offset 0) lines 0 false).1 = []) := by
  constructor
  · intro h0
    have h := scanDrain_fst_no_limit (queryCfg start 0 0) rfl lines 0 false
    simpa [queryCfg] using h
  · intro hpos
    have hlim : 0 < (queryCfg start offset 0).limit := by
      simp only [queryCfg]
      omega
    have h := scanDrain_fst_limit (queryCfg start offset 0) hlim lines 0 false
    have hcap : (queryCfg start offset 0).limit -
        max 0 (queryCfg start offset 0).offset = 0 := by
      simp only [queryCfg]
      omega
    rw [h, hcap, List.take_zero]

theorem claim3_size_zero_amended_witness :
    (scanDrain (queryCfg 0 0 0) [['5', ' ', 'a'], ['6', ' ', 'b']] 0 false).1 =
      [⟨5, [' ', 'a']⟩, ⟨6, [' ', 'b']⟩] ∧
    (scanDrain (queryCfg 0 1 0) [['5', ' ', 'a'], ['6', ' ', 'b']] 0 false).1 = [] := by
  constructor
  · rw [(claim3_size_zero_amended 0 0 [['5', ' ', 'a'], ['6', ' ', 'b']]).1 rfl]
    decide
  · exact (claim3_size_zero_amended 0 1 [['5', ' ', 'a'], ['6', ' ', 'b']]).2 (by decide)

/-- C5: when at least `offset + size` records pass the time-floor and
filter steps (and `size > 0`, so that a page is requested), the scan with
`limit = offset + size` emits exactly the qualifying records at zero-based
qualifying positions `offset .. offset + size - 1`, in stream order. -/
theorem claim5_pagination (start : Int) (offset size : Nat) (flt : List Char)
    (lines : List (List Char)) (hsize : 0 < size)
    (hlen : offset + size ≤
      (lines.filter (qualifies ⟨start, offset, offset + size, flt⟩)).length) :
    (scanDrain ⟨start, offset, offset + size, flt⟩ lines 0 false).1 =
      (((lines.filter (qualifies ⟨start, offset, offset + size, flt⟩)).map
          dataOrZero).drop offset).take size ∧
    ((scanDrain ⟨start, offset, offset + size, flt⟩ lines 0 false).1).length =
      size := by
  have hlim : 0 < (⟨start, offset, offset + size, flt⟩ : ScanCfg).limit := by
    show 0 < offset + size
    omega
  have heq := scanDrain_fst_limit _ hlim lines 0 false
  have hoff : (⟨start, offset, offset + size, flt⟩ : ScanCfg).offset - 0 = offset :=
    rfl
  have hcap : (⟨start, offset, offset + size, flt⟩ : ScanCfg).limit -
      max 0 (⟨start, offset, offset + size, flt⟩ : ScanCfg).offset = size := by
    show offset + size - max 0 offset = size
    omega
  rw [heq, hoff, hcap]
  refine ⟨rfl, ?_⟩
  rw [List.length_take, List.length_drop, List.length_map]
  omega

/-- Ten one-record lines `"<i> a"` for `i = 0 .. 9`. -/
def linesTen : List (List Char) :=
  [['0', ' ', 'a'], ['1', ' ', 'a'], ['2', ' ', 'a'], ['3', ' ', 'a'],
    ['4', ' ', 'a'], ['5', ' ', 'a'], ['6', ' ', 'a'], ['7', ' ', 'a'],
    ['8', ' ', 'a'], ['9', ' ', 'a']]

theorem claim5_pagination_witness :
    (scanDrain ⟨0, 3, 3 + 4, []⟩ linesTen 0 false).1 =
      [⟨3, [' ', 'a']⟩, ⟨4, [' ', 'a']⟩, ⟨5, [' ', 'a']⟩, ⟨6, [' ', 'a']⟩] := by
  have h := claim5_pagination 0 3 4 [] linesTen (by decide) (by decide)
  rw [h.1]
  decide

/-- C6: a scan over one undecodable line between two valid records yields
both valid records in order and sets the sticky error; the malformed line
decodes to the zero `DataPoint`, whose timestamp (the Go zero time) is
before any start instant after year 1, so the line is silently skipped. -/
theorem claim6_malformed_tolerated (start : Int) (l1 bad l2 : List Char)
    (d1 d2 : DataPoint)
    (h1 : lineData l1 = some d1) (h2 : lineData l2 = some d2)
    (hbad : lineData bad = none)
    (ht1 : start ≤ d1.time) (ht2 : start ≤ d2.time) (hz : zeroTimeSec < start) :
    scanDrain ⟨start, 0, 0, []⟩ [l1, bad, l2] 0 false = ([d1, d2], true) := by
  have hfst := scanDrain_fst_no_limit ⟨start, 0, 0, []⟩ rfl [l1, bad, l2] 0 false
  have hsnd := scanDrain_snd_no_limit ⟨start, 0, 0, []⟩ rfl [l1, bad, l2] 0 false
  have hq1 : qualifies ⟨start, 0, 0, []⟩ l1 = true := by
    have ht1' : ¬ (dataOrZero l1).time < start := by
      rw [dataOrZero, h1]
      simpa using ht1
    simp [qualifies, ht1']
  have hq2 : qualifies ⟨start, 0, 0, []⟩ l2 = true := by
    have ht2' : ¬ (dataOrZero l2).time < start := by
      rw [dataOrZero, h2]
      simpa using ht2
    simp [qualifies, ht2']
  have hqb : qualifies ⟨start, 0, 0, []⟩ bad = false := by
    have hbt : (dataOrZero bad).time < start := by
      rw [dataOrZero, hbad]
      simpa [zeroDataPoint] using hz
    simp [qualifies, hbt]
  have hpair :
      scanDrain ⟨start, 0, 0, []⟩ [l1, bad, l2] 0 false =
        ((scanDrain ⟨start, 0, 0, []⟩ [l1, bad, l2] 0 false).1,
          (scanDrain ⟨start, 0, 0, []⟩ [l1, bad, l2] 0 false).2) := rfl
  rw [hpair, hfst, hsnd]
  simp [List.filter_cons, hq1, hq2, hqb, dataOrZero, h1, h2, hbad]

theorem claim6_malformed_tolerated_witness :
    scanDrain ⟨0, 0, 0, []⟩ [['5', ' ', 'a'], ['x', 'x'], ['6', ' ', 'b']] 0 false =
      ([⟨5, [' ', 'a']⟩, ⟨6, [' ', 'b']⟩], true) :=
  claim6_malformed_tolerated 0 ['5', ' ', 'a'] ['x', 'x'] ['6', ' ', 'b']
    ⟨5, [' ', 'a']⟩ ⟨6, [' ', 'b']⟩ (by decide) (by decide) (by decide)
    (by decide) (by decide) (by decide)

/-- C8: with a nonempty filter (and no offset/limit), the scan keeps a
line exactly when the raw encoded line — decimal timestamp prefix included
— contains the filter substring, on top of the time floor; the decoded
payload alone is never what is searched. -/
theorem claim8_filter_raw_line (cfg : ScanCfg) (lines : List (List Char))
    (hflt : cfg.filter ≠ []) (hoff : cfg.offset = 0) (hlim : cfg.limit = 0) :
    (scanDrain cfg lines 0 false).1 =
      (lines.filter (fun l => !decide ((dataOrZero l).time < cfg.start) &&
        hasSub l cfg.filter)).map dataOrZero := by
  rw [scanDrain_fst_no_limit cfg hlim lines 0 false, hoff, Nat.sub_zero,
    List.drop_zero]
  congr 1
  apply List.filter_congr
  intro l _
  simp [qualifies, hflt]

theorem claim8_filter_raw_line_witness :
    (scanDrain ⟨0, 0, 0, ['1', '7']⟩ [['1', '7', '0', '0', ' ', 'a', 'b', 'c']]
        0 false).1 = [⟨1700, [' ', 'a', 'b', 'c']⟩] ∧
      hasSub [' ', 'a', 'b', 'c'] ['1', '7'] = false := by
  constructor
  · rw [claim8_filter_raw_line ⟨0, 0, 0, ['1', '7']⟩
      [['1', '7', '0', '0', ' ', 'a', 'b', 'c']] (by decide) rfl rfl]
    decide
  · decide

/-- C4: over a day range where each visited day either has a well-formed
partition (decodable lines with timestamps at or after `start`) or none, a
query with no offset, filter or limit yields every record of every
existing day in calendar order with no error — a missing day contributes
zero records; and any fatal (non-"does not exist") open error anywhere in
the range is propagated as the reader's error. -/
theorem claim4_range_completeness (fl : Int → Option (List (List Char)))
    (start endT : Int)
    (h : ∀ d ∈ daysFrom ⟨start, endT⟩ zeroTimeSec, ∀ l ∈ linesOf fl d,
      (∀ c ∈ l, c ≠ '\n') ∧ l.getLast? ≠ some '\r' ∧
        (lineData l).isSome = true ∧ start ≤ (dataOrZero l).time) :
    queryRun (fsOfLines fl) start endT 0 0 [] =
      .ok ((catLines fl (daysFrom ⟨start, endT⟩ zeroTimeSec)).map dataOrZero,
        false) ∧
    ∀ fs2 : Int → FileRes,
      (∃ d ∈ daysFrom ⟨start, endT⟩ zeroTimeSec, fs2 d = .fatal) →
      readerBytes fs2 ⟨start, endT⟩ zeroTimeSec = .error () := by
  constructor
  · rw [queryRun_ok fl start endT 0 0 []
      (fun d hd l hl => ⟨(h d hd l hl).1, (h d hd l hl).2.1⟩)]
    have hmem : ∀ l ∈ catLines fl (daysFrom ⟨start, endT⟩ zeroTimeSec),
        (lineData l).isSome = true ∧ start ≤ (dataOrZero l).time := by
      intro l hl
      obtain ⟨d, hd, hld⟩ := mem_catLines fl _ l hl
      exact ⟨(h d hd l hld).2.2.1, (h d hd l hld).2.2.2⟩
    have hfst := scanDrain_fst_no_limit
      (⟨start, 0, 0 + 0, []⟩ : ScanCfg) rfl
      (catLines fl (daysFrom ⟨start, endT⟩ zeroTimeSec)) 0 false
    have hsnd := scanDrain_snd_no_limit
      (⟨start, 0, 0 + 0, []⟩ : ScanCfg) rfl
      (catLines fl (daysFrom ⟨start, endT⟩ zeroTimeSec)) 0 false
    have hfilter : (catLines fl (daysFrom ⟨start, endT⟩ zeroTimeSec)).filter
        (qualifies ⟨start, 0, 0 + 0, []⟩) =
        catLines fl (daysFrom ⟨start, endT⟩ zeroTimeSec) := by
      apply List.filter_eq_self.mpr
      intro l hl
      have hti : ¬ (dataOrZero l).time < start := by
        have := (hmem l hl).2
        omega
      simp [qualifies, hti]
    have hany : (catLines fl (daysFrom ⟨start, endT⟩ zeroTimeSec)).any
        (fun l => (lineData l).isNone) = false := by
      rw [List.any_eq_false]
      intro l hl
      have hsome := (hmem l hl).1
      cases hld : lineData l
      · rw [hld] at hsome
        simp at hsome
      · simp
    have hpair : scanDrain (⟨start, 0, 0 + 0, []⟩ : ScanCfg)
        (catLines fl (daysFrom ⟨start, endT⟩ zeroTimeSec)) 0 false =
        ((scanDrain (⟨start, 0, 0 + 0, []⟩ : ScanCfg)
          (catLines fl (daysFrom ⟨start, endT⟩ zeroTimeSec)) 0 false).1,
          (scanDrain (⟨start, 0, 0 + 0, []⟩ : ScanCfg)
            (catLines fl (daysFrom ⟨start, endT⟩ zeroTimeSec)) 0 false).2) := rfl
    rw [hpair, hfst, hsnd, hfilter, hany]
    simp
  · intro fs2 hex
    exact readerBytes_fatal fs2 ⟨start, endT⟩
      (daysFrom ⟨start, endT⟩ zeroTimeSec).length zeroTimeSec le_rfl hex

/-- A three-day filesystem with the middle day missing: day 0 holds
`"5 a"`, day 172800 holds `"9 b"`, day 86400 has no partition file. -/
def flMissingMiddle : Int → Option (List (List Char)) := fun d =>
  if d = 0 then some [['5', ' ', 'a']]
  else if d = 172800 then some [['9', ' ', 'b']]
  else none

theorem claim4_range_completeness_witness :
    queryRun (fsOfLines flMissingMiddle) 0 172800 0 0 [] =
      .ok ([⟨5, [' ', 'a']⟩, ⟨9, [' ', 'b']⟩], false) := by
  have e0 : stepDay ⟨0, 172800⟩ zeroTimeSec = 0 := by decide
  have e1 : stepDay ⟨0, 172800⟩ 0 = 86400 := by decide
  have e2 : stepDay ⟨0, 172800⟩ 86400 = 172800 := by decide
  have hdays : daysFrom ⟨0, 172800⟩ zeroTimeSec = [0, 86400, 172800] := by
    rw [daysFrom, dif_neg (by decide), e0]
    rw [daysFrom, dif_neg (by decide), e1]
    rw [daysFrom, dif_neg (by decide), e2]
    rw [daysFrom, dif_pos (by decide)]
  have h := claim4_range_completeness flMissingMiddle 0 172800
    (by rw [hdays]; decide)
  rw [h.1, hdays]
  congr 1

/-- C10: the scanner applies only the `start` time floor, never a
per-record upper bound at `end`: a record whose timestamp is strictly
after `end` but which sits in a partition file of an in-range day is still
yielded. -/
theorem claim10_no_upper_bound (fl : Int → Option (List (List Char)))
    (start endT : Int) (d : Int) (l : List Char) (dp : DataPoint)
    (hd : d ∈ daysFrom ⟨start, endT⟩ zeroTimeSec)
    (hfl : ∀ d' ∈ daysFrom ⟨start, endT⟩ zeroTimeSec, d' ≠ d → fl d' = none)
    (hld : fl d = some [l])
    (hparse : lineData l = some dp)
    (hnl : ∀ c ∈ l, c ≠ '\n') (hcr : l.getLast? ≠ some '\r')
    (htime : start ≤ dp.time) (hafter : endT < dp.time) :
    queryRun (fsOfLines fl) start endT 0 0 [] = .ok ([dp], false) := by
  have _hafter := hafter
  have hlines' : ∀ d' ∈ daysFrom ⟨start, endT⟩ zeroTimeSec,
      ∀ l' ∈ linesOf fl d', (∀ c ∈ l', c ≠ '\n') ∧ l'.getLast? ≠ some '\r' := by
    intro d' hd' l' hl'
    by_cases hdd : d' = d
    · subst hdd
      rw [linesOf, hld] at hl'
      simp at hl'
      subst hl'
      exact ⟨hnl, hcr⟩
    · rw [linesOf, hfl d' hd' hdd] at hl'
      simp at hl'
  rw [queryRun_ok fl start endT 0 0 [] hlines']
  rw [catLines_single fl d [l] _ (daysFrom_pairwise _ _) hd hfl hld]
  have hfst := scanDrain_fst_no_limit (⟨start, 0, 0 + 0, []⟩ : ScanCfg) rfl
    [l] 0 false
  have hsnd := scanDrain_snd_no_limit (⟨start, 0, 0 + 0, []⟩ : ScanCfg) rfl
    [l] 0 false
  have hti : ¬ (dataOrZero l).time < start := by
    rw [dataOrZero, hparse]
    simpa using htime
  have hq : qualifies ⟨start, 0, 0 + 0, []⟩ l = true := by
    simp [qualifies, hti]
  have hpair : scanDrain (⟨start, 0, 0 + 0, []⟩ : ScanCfg) [l] 0 false =
      ((scanDrain (⟨start, 0, 0 + 0, []⟩ : ScanCfg) [l] 0 false).1,
        (scanDrain (⟨start, 0, 0 + 0, []⟩ : ScanCfg) [l] 0 false).2) := rfl
  rw [hpair, hfst, hsnd]
  simp [List.filter_cons, hq, dataOrZero, hparse]

/-- A single-day filesystem: day 0 holds one record timestamped 99, far
past the queried upper bound. -/
def flLateRecord : Int → Option (List (List Char)) := fun d =>
  if d = 0 then some [['9', '9', ' ', 'b']] else none

theorem claim10_no_upper_bound_witness :
    queryRun (fsOfLines flLateRecord) 0 10 0 0 [] =
      .ok ([⟨99, [' ', 'b']⟩], false) := by
  have hdays : daysFrom ⟨0, 10⟩ zeroTimeSec = [0] := by
    rw [daysFrom, dif_neg (by decide),
      show stepDay ⟨0, 10⟩ zeroTimeSec = 0 from by decide]
    rw [daysFrom, dif_pos (by decide)]
  exact claim10_no_upper_bound flLateRecord 0 10 0 ['9', '9', ' ', 'b']
    ⟨99, [' ', 'b']⟩ (by rw [hdays]; decide) (by rw [hdays]; decide)
    (by decide) (by decide) (by decide) (by decide) (by decide) (by decide)

/-- A filesystem with no partition file on any day. -/
def fsNone : Int → FileRes := fun _ => .absent

/-- C7 as stated is false: with the range exhausted and one carry-over
byte `'a'` buffered, the first pull returns that byte with end-of-stream,
but the second pull returns the SAME byte again with end-of-stream — not
zero bytes — because `Read` copies `r.buf` out on `io.EOF` without
consuming it. -/
theorem claim7_leftover_redelivered :
    readLoop fsNone ⟨0, 0⟩ 4 ⟨86400, [], false, ['a']⟩ =
      ((1, ['a'], some .eof), ⟨172800, [], false, ['a']⟩) ∧
    readLoop fsNone ⟨0, 0⟩ 4 ⟨172800, [], false, ['a']⟩ =
      ((1, ['a'], some .eof), ⟨259200, [], false, ['a']⟩) := by
  constructor
  · have h := readLoop_exhausted fsNone ⟨0, 0⟩ 4 ⟨86400, [], false, ['a']⟩
      (by decide) (by decide) rfl (by decide)
    exact h.trans (by decide)
  · have h := readLoop_exhausted fsNone ⟨0, 0⟩ 4 ⟨172800, [], false, ['a']⟩
      (by decide) (by decide) rfl (by decide)
    exact h.trans (by decide)

/-- C7 amended: at final exhaustion the carry-over bytes shorter than the
request are returned together with the end-of-stream signal, but the
buffer is not consumed: the immediately following pull returns those same
bytes again with end-of-stream (only `r.current` advances), so a caller
that keeps pulling past end-of-stream receives buffered bytes twice.  (The
line scanner stops at the first end-of-stream and never observes this.) -/
theorem claim7_exhaustion_amended (fs : Int → FileRes) (cfg : RCfg) (l : Nat)
    (st : RdState) (h1 : cfg.endT < st.current) (h2 : cfg.start ≤ st.current)
    (hk : st.keepFile = false) (hb : st.buf.length < l) :
    readLoop fs cfg l st =
      ((st.buf.length, st.buf, some .eof),
        { st with current := st.current + 86400 }) ∧
    readLoop fs cfg l { st with current := st.current + 86400 } =
      ((st.buf.length, st.buf, some .eof),
        { st with current := st.current + 86400 + 86400 }) := by
  refine ⟨readLoop_exhausted fs cfg l st h1 h2 hk hb, ?_⟩
  exact readLoop_exhausted fs cfg l { st with current := st.current + 86400 }
    (by simp; omega) (by simp; omega) hk hb

theorem claim7_exhaustion_amended_witness :
    readLoop fsNone ⟨0, 5⟩ 3 ⟨86400, [], false, ['x']⟩ =
      ((1, ['x'], some .eof), ⟨172800, [], false, ['x']⟩) ∧
    readLoop fsNone ⟨0, 5⟩ 3 ⟨172800, [], false, ['x']⟩ =
      ((1, ['x'], some .eof), ⟨259200, [], false, ['x']⟩) := by
  have h := claim7_exhaustion_amended fsNone ⟨0, 5⟩ 3 ⟨86400, [], false, ['x']⟩
    (by decide) (by decide) rfl (by decide)
  exact ⟨h.1.trans (by decide), h.2.trans (by decide)⟩

/-- C9: write-cache handle discipline.  First conjunct: during any
sequence of successful saves, every open happens with no handle cached and
every close with exactly one — so at most one write handle is ever open
and the previous handle is fully closed before the next open.  Second:
writing any number of records to one (day, table) target from a fresh
handle opens exactly one file and closes none.  Third: writing to M
pairwise distinct targets while a handle for yet another target is cached
closes and reopens exactly M times, never more. -/
theorem claim9_write_cache :
    (∀ (ts : List (Int × String)) (st : DBW),
      balOK (handles st) (saveSeq envOK st ts).2 = true) ∧
    (∀ (tgt : Target) (ts : List (Int × String)), ts ≠ [] →
      (∀ x ∈ ts, getTablePath x.1 x.2 = tgt) →
      countOpn (saveSeq envOK newDB ts).2 = 1 ∧
        countCls (saveSeq envOK newDB ts).2 = 0) ∧
    (∀ (ts : List (Int × String)) (b : Bool) (p0 : Target),
      (ts.map fun x => getTablePath x.1 x.2).Pairwise (· ≠ ·) →
      p0 ∉ ts.map (fun x => getTablePath x.1 x.2) →
      countOpn (saveSeq envOK ⟨b, some p0, some p0⟩ ts).2 = ts.length ∧
        countCls (saveSeq envOK ⟨b, some p0, some p0⟩ ts).2 = ts.length) :=
  ⟨saveSeq_balOK,
    fun tgt ts h1 h2 => saveSeq_same_target tgt ts h1 h2,
    saveSeq_distinct⟩

theorem claim9_write_cache_witness :
    balOK (handles newDB)
      (saveSeq envOK newDB [(0, "logs"), (86400, "logs"), (86400, "logs")]).2 =
        true ∧
    (countOpn (saveSeq envOK newDB [(0, "logs"), (50, "logs")]).2 = 1 ∧
      countCls (saveSeq envOK newDB [(0, "logs"), (50, "logs")]).2 = 0) ∧
    (countOpn (saveSeq envOK (⟨false, some ⟨5, "p0"⟩, some ⟨5, "p0"⟩⟩ : DBW)
        [(0, "a"), (0, "b")]).2 = 2 ∧
      countCls (saveSeq envOK (⟨false, some ⟨5, "p0"⟩, some ⟨5, "p0"⟩⟩ : DBW)
        [(0, "a"), (0, "b")]).2 = 2) :=
  ⟨claim9_write_cache.1 [(0, "logs"), (86400, "logs"), (86400, "logs")] newDB,
    claim9_write_cache.2.1 ⟨0, "logs"⟩ [(0, "logs"), (50, "logs")]
      (by decide) (by decide),
    claim9_write_cache.2.2 [(0, "a"), (0, "b")] false ⟨5, "p0"⟩
      (by decide) (by decide)⟩

end TimeDB
